import Mathlib

/-!
# Verification of `list_files.py`

A shallow embedding of the directory-walk-and-format utility in
`list_files.py`.  The script consists of:

* `list_files(directory)` — a generator wrapping `os.walk`, yielding a
  `(root, filename)` pair for every regular file found under the root;
* `files_to_yaml(directory, tabs=5)` — filters the walker's entries to
  filenames ending in `".qmd"` and prints a two-line YAML fragment per
  matching entry;
* `files_to_markdown(directory)` — same filter, printing a one-line
  Markdown bullet link per matching entry.

## Modelling choices

* A directory's contents are a `List FsEntry` (regular files and
  subdirectories, in the order the platform's `scandir` enumerates them:
  the list order models the platform enumeration order).
* The root path handed to the script is modelled together with the state
  of the filesystem at that path (`Root`): an existing directory, an
  existing non-directory, or nothing at all.  CPython's `os.walk` calls
  `scandir(top)`; when that call raises `OSError` (missing path,
  not a directory, permission) and `onerror` is `None` — the default, and
  what the script uses — the error is swallowed and the generator simply
  yields nothing for that directory.  The embedding reproduces exactly
  this documented behaviour.
* Directory paths are modelled as their component lists (`List String`),
  head = the root path string as passed to the script; `os.walk` builds
  each subdirectory path with `os.path.join(root, dirname)`, and the
  script renders an href with `os.path.join(*file)`.  `ospath_join`
  models `posixpath.join` for a relative second argument (the only case
  that occurs: directory names never start with `/`), and `renderPath`
  folds it over the components exactly as `os.walk` does.
* `print` output is modelled as the list of emitted stdout lines; the
  YAML f-string contains one embedded `\n`, so each matching entry
  contributes two lines.
* Python string helpers used by the script are modelled on `List Char`:
  `str.endswith(".qmd")` is a literal suffix test and
  `str.replace(".qmd", "")` removes every non-overlapping occurrence
  left to right.
-/

/-- One entry of a directory listing: a regular file or a subdirectory
with its own listing.  List order models the platform enumeration order
of `os.scandir`. -/
inductive FsEntry : Type where
  | file (name : String)
  | dir (name : String) (children : List FsEntry)

/-- What the filesystem holds at the root path given to the script:
an existing directory with its listing, an existing non-directory
(regular file, device, …), or no entry at all. -/
inductive Root : Type where
  | dir (entries : List FsEntry)
  | notDir
  | missing

/-- The error class the spec calls `FilesystemError` (CPython: `OSError`).
Used only to state claims about error propagation; the translated code
has no raise site (see `list_files`). -/
inductive FsError : Type where
  | filesystemError
  deriving Repr, DecidableEq

namespace ListFilesPy

/-- The regular-file names of a listing, in enumeration order
(`os.walk` splits `scandir`'s entries into `dirs` and `files`,
preserving relative order). -/
def fileNames (es : List FsEntry) : List String :=
  es.filterMap fun e =>
    match e with
    | .file n => some n
    | .dir _ _ => none

/-- The subdirectories of a listing, in enumeration order. -/
def subdirsOf (es : List FsEntry) : List (String × List FsEntry) :=
  es.filterMap fun e =>
    match e with
    | .file _ => none
    | .dir n cs => some (n, cs)

mutual

/-- The pairs yielded by `list_files` for the directory whose path
components are `p` and whose listing is `es`: `os.walk` (top-down)
yields the triple for `p` first — from which the script yields
`(p, f)` for every regular file `f` — and then recurses into each
subdirectory in enumeration order. -/
def filesUnder (p : List String) (es : List FsEntry) : List (List String × String) :=
  (fileNames es).map (fun f => (p, f)) ++ filesUnderChildren p es

/-- Recursion of `os.walk` into the subdirectories of a listing, in
enumeration order; regular files contribute nothing here (they were
yielded with the parent's triple). -/
def filesUnderChildren (p : List String) : List FsEntry → List (List String × String)
  | [] => []
  | .file _ :: rest => filesUnderChildren p rest
  | .dir n cs :: rest => filesUnder (p ++ [n]) cs ++ filesUnderChildren p rest

end

/-- Model of `list_files(directory)`: all `(root, filename)` pairs yielded by the
generator, in yield order.  When the root path is missing or not a
directory, `os.walk`'s initial `scandir` raises `OSError`, which
`os.walk` swallows (`onerror` is `None`), so the generator yields
nothing and no exception reaches the script. -/
def list_files (p : List String) (r : Root) : List (List String × String) :=
  match r with
  | .dir es => filesUnder p es
  | .notDir => []
  | .missing => []

/-- Model of `posixpath.join a b` for a relative `b` (the only case the script
produces: `b` is always a bare entry name): if `a` is empty or already
ends with the separator, concatenate, else insert one `/`. -/
def ospath_join (a b : String) : String :=
  if a = "" then b
  else if a.data.getLast? = some '/' then a ++ b
  else a ++ "/" ++ b

/-- Renders a component-list path back to the string `os.walk` carries:
the head is the root path as passed to the script, and each further
component was appended with `os.path.join`. -/
def renderPath : List String → String
  | [] => ""
  | r :: rest => rest.foldl ospath_join r

/-- The characters of the literal `".qmd"`. -/
def qmdChars : List Char := ['.', 'q', 'm', 'd']

/-- Python `name.endswith(".qmd")`: a literal suffix test on the
characters of `name`. -/
def endswith_qmd (s : String) : Bool :=
  qmdChars.isSuffixOf s.data

/-- Core of Python `name.replace(".qmd", "")`: scans left to right and
removes every non-overlapping occurrence of `".qmd"`. -/
def replaceQmdAux : List Char → List Char
  | '.' :: 'q' :: 'm' :: 'd' :: rest => replaceQmdAux rest
  | c :: rest => c :: replaceQmdAux rest
  | [] => []

/-- Python `name.replace(".qmd", "")`. -/
def py_replace_qmd (s : String) : String :=
  String.mk (replaceQmdAux s.data)

/-- Python `"  " * n` (the two-space indentation unit repeated). -/
def py_repeat (s : String) (n : Nat) : String :=
  match n with
  | 0 => ""
  | n + 1 => s ++ py_repeat s n

/-- The entries surviving the filter
`filter(lambda x: x[1].endswith(".qmd"), list_files(directory))`. -/
def matching_entries (p : List String) (r : Root) : List (List String × String) :=
  (list_files p r).filter fun x => endswith_qmd x.2

/-- The two stdout lines of the YAML fragment printed for one matching
entry: the f-string
`{"  " * tabs}- text: "{file[1].replace(".qmd", "")}"\n{"  " * (tabs + 1)}href: {os.path.join(*file)}`
holds one embedded newline, so one `print` call emits these two lines. -/
def yaml_entry (tabs : Nat) (file : List String × String) : List String :=
  [py_repeat "  " tabs ++ "- text: \"" ++ py_replace_qmd file.2 ++ "\"",
   py_repeat "  " (tabs + 1) ++ "href: " ++ ospath_join (renderPath file.1) file.2]

/-- Model of `files_to_yaml(directory, tabs=5)`: its stdout lines. -/
def files_to_yaml (p : List String) (r : Root) (tabs : Nat := 5) : List String :=
  (matching_entries p r).flatMap (yaml_entry tabs)

/-- The single stdout line printed for one matching entry of
`files_to_markdown`: `- [{file[1].replace(".qmd", "")}]({os.path.join(*file)})`. -/
def md_entry (file : List String × String) : String :=
  "- [" ++ py_replace_qmd file.2 ++ "](" ++ ospath_join (renderPath file.1) file.2 ++ ")"

/-- Model of `files_to_markdown(directory)`: its stdout lines. -/
def files_to_markdown (p : List String) (r : Root) : List String :=
  (matching_entries p r).map md_entry

/-- A whole run of `files_to_yaml` at the process boundary: the script
installs no exception handler, so an exception raised anywhere would
surface here as `Except.error`.  The translated body has no raise site
(`os.walk` swallows the `scandir` failure, see `list_files`), so the
run always completes normally with its stdout lines. -/
def run_files_to_yaml (p : List String) (r : Root) (tabs : Nat := 5) :
    Except FsError (List String) :=
  Except.ok (files_to_yaml p r tabs)

/-- A whole run of `files_to_markdown` at the process boundary. -/
def run_files_to_markdown (p : List String) (r : Root) :
    Except FsError (List String) :=
  Except.ok (files_to_markdown p r)

/-- The name of a directory entry. -/
def entryName : FsEntry → String
  | .file n => n
  | .dir n _ => n

mutual

/-- A directory listing as a real filesystem produces it: the names in
every directory (at every depth) are pairwise distinct.  (A filesystem
directory cannot hold two entries of the same name.) -/
def wfListing (es : List FsEntry) : Bool :=
  decide (es.map entryName).Nodup && wfChildren es

/-- Well-formedness of all subdirectory listings of a listing. -/
def wfChildren : List FsEntry → Bool
  | [] => true
  | .file _ :: rest => wfChildren rest
  | .dir _ cs :: rest => wfListing cs && wfChildren rest

end

/-- Spec-side rendering, for the refinement claim about the walker: the
pair `(d, f)` is a regular file reachable from the root directory —
listing `es` at path `p` — when `f` is a regular file directly in a
(possibly empty) chain of subdirectories descending from `es`, and `d`
is the root path followed by that chain. -/
inductive ReachableFile : List String → List FsEntry → List String × String → Prop where
  | here {p : List String} {es : List FsEntry} {n : String} :
      FsEntry.file n ∈ es → ReachableFile p es (p, n)
  | deeper {p : List String} {es : List FsEntry} {n : String}
      {cs : List FsEntry} {x : List String × String} :
      FsEntry.dir n cs ∈ es → ReachableFile (p ++ [n]) cs x → ReachableFile p es x

/-- Modelled from the spec: the plain-listing output shape (spec §4.2,
shape 1) has no implementation under `src/` — `list_files.py` defines
only the YAML and Markdown entry points.  Per the spec's words, it
prints, "for every FileEntry produced by the walker (no suffix filter),
the joined path (directory + filename) as a single line, preserving the
walker's traversal order." -/
def files_to_list (p : List String) (r : Root) : List String :=
  (list_files p r).map fun f => ospath_join (renderPath f.1) f.2

/-- The number of two-space indentation units a line starts with. -/
def indentUnits (s : String) : Nat :=
  (s.data.takeWhile fun c => c == ' ').length / 2

end ListFilesPy

namespace ListFilesPy

/-! ## Helper lemmas -/

/-- Structural induction over a directory listing that also descends
into subdirectory listings. -/
theorem listing_induction (motive : List FsEntry → Prop)
    (hnil : motive [])
    (hfile : ∀ n rest, motive rest → motive (FsEntry.file n :: rest))
    (hdir : ∀ n cs rest, motive cs → motive rest → motive (FsEntry.dir n cs :: rest)) :
    ∀ es, motive es
  | [] => hnil
  | .file n :: rest => hfile n rest (listing_induction motive hnil hfile hdir rest)
  | .dir n cs :: rest =>
      hdir n cs rest (listing_induction motive hnil hfile hdir cs)
        (listing_induction motive hnil hfile hdir rest)

theorem mem_fileNames {f : String} {es : List FsEntry} :
    f ∈ fileNames es ↔ FsEntry.file f ∈ es := by
  simp only [fileNames, List.mem_filterMap]
  constructor
  · rintro ⟨e, he, hg⟩
    cases e with
    | file n => cases hg; exact he
    | dir n cs => cases hg
  · intro h
    exact ⟨FsEntry.file f, h, rfl⟩

/-- Inversion of the two ways a file can be reachable: directly in the
listing, or through one of its subdirectories. -/
theorem reachable_cases {q : List String} {es : List FsEntry}
    {x : List String × String} :
    ReachableFile q es x ↔
      (∃ n, FsEntry.file n ∈ es ∧ x = (q, n)) ∨
        (∃ n cs, FsEntry.dir n cs ∈ es ∧ ReachableFile (q ++ [n]) cs x) := by
  constructor
  · intro h
    cases h with
    | here hmem => exact Or.inl ⟨_, hmem, rfl⟩
    | deeper hmem hr => exact Or.inr ⟨_, _, hmem, hr⟩
  · rintro (⟨n, hmem, rfl⟩ | ⟨n, cs, hmem, hr⟩)
    · exact ReachableFile.here hmem
    · exact ReachableFile.deeper hmem hr

theorem mem_filesUnderChildren {es : List FsEntry} {p : List String}
    {x : List String × String} :
    x ∈ filesUnderChildren p es ↔
      ∃ n cs, FsEntry.dir n cs ∈ es ∧ ReachableFile (p ++ [n]) cs x := by
  induction es using listing_induction generalizing p x with
  | hnil => simp [filesUnderChildren]
  | hfile m rest ih =>
      simp only [filesUnderChildren, ih, List.mem_cons]
      constructor
      · rintro ⟨n, cs, hmem, hr⟩
        exact ⟨n, cs, Or.inr hmem, hr⟩
      · rintro ⟨n, cs, hmem | hmem, hr⟩
        · cases hmem
        · exact ⟨n, cs, hmem, hr⟩
  | hdir n cs rest ihcs ihrest =>
      have hu : ∀ (q : List String) (y : List String × String),
          y ∈ filesUnder q cs ↔ ReachableFile q cs y := by
        intro q y
        rw [reachable_cases]
        simp only [filesUnder, List.mem_append, List.mem_map, mem_fileNames, ihcs]
        constructor
        · rintro (⟨f, hf, rfl⟩ | h)
          · exact Or.inl ⟨f, hf, rfl⟩
          · exact Or.inr h
        · rintro (⟨f, hf, rfl⟩ | h)
          · exact Or.inl ⟨f, hf, rfl⟩
          · exact Or.inr h
      simp only [filesUnderChildren, List.mem_append]
      constructor
      · rintro (h | h)
        · exact ⟨n, cs, List.mem_cons_self _ _, (hu _ _).mp h⟩
        · obtain ⟨n', cs', hm, hr⟩ := ihrest.mp h
          exact ⟨n', cs', List.mem_cons_of_mem _ hm, hr⟩
      · rintro ⟨n', cs', hmem, hr⟩
        rcases List.mem_cons.mp hmem with heq | hm
        · cases heq
          exact Or.inl ((hu _ _).mpr hr)
        · exact Or.inr (ihrest.mpr ⟨n', cs', hm, hr⟩)

theorem mem_filesUnder {p : List String} {es : List FsEntry}
    {x : List String × String} :
    x ∈ filesUnder p es ↔ ReachableFile p es x := by
  rw [reachable_cases]
  simp only [filesUnder, List.mem_append, List.mem_map, mem_fileNames,
    mem_filesUnderChildren]
  constructor
  · rintro (⟨f, hf, rfl⟩ | h)
    · exact Or.inl ⟨f, hf, rfl⟩
    · exact Or.inr h
  · rintro (⟨f, hf, rfl⟩ | h)
    · exact Or.inl ⟨f, hf, rfl⟩
    · exact Or.inr h

end ListFilesPy

namespace ListFilesPy

/-- Every file reachable below path `q` carries `q` as a prefix of its
directory component. -/
theorem reachable_prefix {q : List String} {es : List FsEntry}
    {x : List String × String} (h : ReachableFile q es x) : q <+: x.1 := by
  induction h with
  | here _ => exact List.prefix_refl _
  | deeper _ _ ih => exact (List.prefix_append _ _).trans ih

/-- Every pair produced by the walker's recursion into subdirectories
lies under one of the subdirectory names of the listing. -/
theorem mem_filesUnderChildren_shape {p : List String} {es : List FsEntry}
    {x : List String × String} (h : x ∈ filesUnderChildren p es) :
    ∃ n cs t, FsEntry.dir n cs ∈ es ∧ x.1 = p ++ n :: t := by
  obtain ⟨n, cs, hmem, hr⟩ := mem_filesUnderChildren.mp h
  obtain ⟨t, ht⟩ := reachable_prefix hr
  exact ⟨n, cs, t, hmem, by simp [← ht]⟩

theorem wfListing_iff {es : List FsEntry} :
    wfListing es = true ↔ (es.map entryName).Nodup ∧ wfChildren es = true := by
  simp [wfListing]

theorem wfListing_tail {e : FsEntry} {rest : List FsEntry}
    (h : wfListing (e :: rest) = true) : wfListing rest = true := by
  rw [wfListing_iff] at h ⊢
  obtain ⟨hn, hc⟩ := h
  refine ⟨(List.nodup_cons.mp (by simpa using hn)).2, ?_⟩
  cases e with
  | file n => simpa [wfChildren] using hc
  | dir n cs =>
      simp only [wfChildren, Bool.and_eq_true] at hc
      exact hc.2

theorem wfListing_dir {n : String} {cs rest : List FsEntry}
    (h : wfListing (FsEntry.dir n cs :: rest) = true) : wfListing cs = true := by
  rw [wfListing_iff] at h
  have hc := h.2
  simp only [wfChildren, Bool.and_eq_true] at hc
  exact hc.1

theorem fileNames_sublist (es : List FsEntry) :
    List.Sublist (fileNames es) (es.map entryName) := by
  induction es with
  | nil => simp [fileNames]
  | cons e rest ih =>
      cases e with
      | file n =>
          simpa [fileNames, List.filterMap_cons, entryName] using ih.cons₂ n
      | dir n cs =>
          simpa [fileNames, List.filterMap_cons, entryName] using ih.cons n

/-- Assembles no-duplicates for one directory level: distinct entry
names give distinct file pairs at this level, and those pairs are
disjoint from everything produced below the subdirectories. -/
theorem nodup_filesUnder_assemble (p : List String) (es : List FsEntry)
    (hn : (es.map entryName).Nodup) (hc : (filesUnderChildren p es).Nodup) :
    (filesUnder p es).Nodup := by
  rw [filesUnder, List.nodup_append]
  refine ⟨?_, hc, ?_⟩
  · exact ((fileNames_sublist es).nodup hn).map fun a b hab => by simpa using hab
  · rintro x hx hx'
    obtain ⟨f, _, rfl⟩ := List.mem_map.mp hx
    obtain ⟨n, cs, t, _, h1⟩ := mem_filesUnderChildren_shape hx'
    simp only at h1
    exact absurd (List.self_eq_append_right.mp h1) (List.cons_ne_nil _ _)

theorem nodup_filesUnderChildren {es : List FsEntry} (p : List String)
    (h : wfListing es = true) : (filesUnderChildren p es).Nodup := by
  induction es using listing_induction generalizing p with
  | hnil => simp [filesUnderChildren]
  | hfile m rest ih =>
      rw [filesUnderChildren]
      exact ih p (wfListing_tail h)
  | hdir n cs rest ihcs ihrest =>
      rw [filesUnderChildren, List.nodup_append]
      refine ⟨?_, ihrest p (wfListing_tail h), ?_⟩
      · exact nodup_filesUnder_assemble _ _ (wfListing_iff.mp (wfListing_dir h)).1
          (ihcs _ (wfListing_dir h))
      · rintro x hx hx'
        obtain ⟨t, ht⟩ := reachable_prefix (mem_filesUnder.mp hx)
        obtain ⟨n', cs', t', hmem', h1⟩ := mem_filesUnderChildren_shape hx'
        have hne : n ≠ n' := by
          have hnodup := (wfListing_iff.mp h).1
          simp only [List.map_cons, entryName, List.nodup_cons] at hnodup
          intro heq
          exact hnodup.1 (heq ▸ List.mem_map.mpr ⟨FsEntry.dir n' cs', hmem', rfl⟩)
        have ht' : x.1 = p ++ n :: t := by simp [← ht]
        rw [ht'] at h1
        exact hne (List.cons.injEq .. ▸ List.append_cancel_left h1.symm |>.1).symm

theorem nodup_filesUnder {es : List FsEntry} (p : List String)
    (h : wfListing es = true) : (filesUnder p es).Nodup :=
  nodup_filesUnder_assemble p es (wfListing_iff.mp h).1 (nodup_filesUnderChildren p h)

end ListFilesPy

namespace ListFilesPy

theorem data_py_repeat (n : Nat) :
    (py_repeat "  " n).data = List.replicate (2 * n) ' ' := by
  induction n with
  | zero => rfl
  | succ n ih =>
      rw [py_repeat, String.data_append, ih]
      rw [show 2 * (n + 1) = 2 + 2 * n by omega, List.replicate_add]
      rfl

theorem takeWhile_replicate_cons {p : Char → Bool} {a c : Char} {l : List Char}
    (n : Nat) (hpa : p a = true) (hpc : p c = false) :
    (List.replicate n a ++ c :: l).takeWhile p = List.replicate n a := by
  induction n with
  | zero => simp [List.takeWhile_cons, hpc]
  | succ n ih => simp [List.replicate_succ, List.takeWhile_cons, hpa, hpc, ih]

theorem indentUnits_eq {s : String} {t : Nat} {c : Char} {l : List Char}
    (hd : s.data = List.replicate (2 * t) ' ' ++ c :: l) (hc : (c == ' ') = false) :
    indentUnits s = t := by
  rw [indentUnits, hd,
    takeWhile_replicate_cons (p := fun x => x == ' ') (a := ' ') (2 * t) (by decide) hc,
    List.length_replicate]
  omega

theorem indentUnits_yaml_line1 (t : Nat) (lab : String) :
    indentUnits (py_repeat "  " t ++ "- text: \"" ++ lab ++ "\"") = t := by
  refine indentUnits_eq (c := '-')
    (l := (" text: \"" : String).data ++ (lab.data ++ ("\"" : String).data)) ?_ (by decide)
  simp only [String.data_append, data_py_repeat, List.append_assoc]
  rfl

theorem indentUnits_yaml_line2 (t : Nat) (href : String) :
    indentUnits (py_repeat "  " t ++ "href: " ++ href) = t := by
  refine indentUnits_eq (c := 'h')
    (l := ("ref: " : String).data ++ href.data) ?_ (by decide)
  simp only [String.data_append, data_py_repeat, List.append_assoc]
  rfl

theorem endswith_qmd_append (a b : String) (h : endswith_qmd b = true) :
    endswith_qmd (a ++ b) = true := by
  rw [endswith_qmd, List.isSuffixOf_iff_suffix] at h ⊢
  rw [String.data_append]
  exact h.trans (List.suffix_append a.data b.data)

theorem endswith_qmd_ospath_join (a n : String) (h : endswith_qmd n = true) :
    endswith_qmd (ospath_join a n) = true := by
  rw [ospath_join]
  split
  · exact h
  · split
    · exact endswith_qmd_append _ _ h
    · exact endswith_qmd_append _ _ h

end ListFilesPy

namespace ListFilesPy

/-! ## Shared computations -/

theorem list_files_singleton (d : List String) (n : String) :
    list_files d (Root.dir [FsEntry.file n]) = [(d, n)] := by
  simp [list_files, filesUnder, filesUnderChildren, fileNames]

theorem matching_singleton (d : List String) (n : String) :
    matching_entries d (Root.dir [FsEntry.file n]) =
      if endswith_qmd n = true then [(d, n)] else [] := by
  rw [matching_entries, list_files_singleton]
  simp [List.filter_singleton]

end ListFilesPy

namespace ListFilesPy

/-! ## Claims -/

/-- Claim C1, counterexample: on a missing root path, both operations
complete normally (`Except.ok`) with zero stdout lines — no
`FilesystemError` reaches the process boundary and the exit code is 0,
contradicting the claimed non-zero-exit failure. -/
theorem run_missing_root_ok_cex :
    run_files_to_yaml ["tips"] Root.missing = Except.ok [] ∧
    run_files_to_markdown ["tips"] Root.missing = Except.ok [] :=
  ⟨rfl, rfl⟩

/-- Claim C1, amended: for every root path that does not exist or is not
a directory, both formatting operations write no stdout line and the
process completes normally (exit code 0): `os.walk` with the default
`onerror=None` swallows the `scandir` failure, so no `FilesystemError`
propagates. -/
theorem run_bad_root_silent_success (p : List String) (r : Root) (tabs : Nat)
    (h : r = Root.missing ∨ r = Root.notDir) :
    run_files_to_yaml p r tabs = Except.ok [] ∧
    run_files_to_markdown p r = Except.ok [] ∧
    files_to_yaml p r tabs = [] ∧ files_to_markdown p r = [] := by
  rcases h with rfl | rfl <;> exact ⟨rfl, rfl, rfl, rfl⟩

/-- Witness for `run_bad_root_silent_success` at a concrete non-directory
root. -/
theorem run_bad_root_silent_success_witness :
    (Root.notDir = Root.missing ∨ Root.notDir = Root.notDir) ∧
    (run_files_to_yaml ["tips"] Root.notDir 5 = Except.ok [] ∧
      run_files_to_markdown ["tips"] Root.notDir = Except.ok [] ∧
      files_to_yaml ["tips"] Root.notDir 5 = [] ∧
      files_to_markdown ["tips"] Root.notDir = []) :=
  ⟨Or.inr rfl, run_bad_root_silent_success ["tips"] Root.notDir 5 (Or.inr rfl)⟩

/-- Claim C2, counterexample: for the filename `a.qmd.qmd` (which ends in
`.qmd`), the printed label is `a`, while the filename with exactly the
trailing four characters removed is `a.qmd` — Python's
`replace(".qmd", "")` removes every occurrence, not only the trailing
one. -/
theorem label_trailing_strip_cex :
    files_to_markdown ["tips"] (Root.dir [FsEntry.file "a.qmd.qmd"]) =
      ["- [a](tips/a.qmd.qmd)"] ∧
    String.mk ("a.qmd.qmd".data.take ("a.qmd.qmd".data.length - 4)) = "a.qmd" ∧
    ("a" : String) ≠ "a.qmd" := by
  refine ⟨?_, by decide, by decide⟩
  rw [files_to_markdown, matching_singleton]
  decide

/-- Claim C2, amended: for every filename ending in `.qmd`, the label
printed by both formatters is the filename with every non-overlapping
occurrence of `.qmd` removed, scanning left to right (Python
`str.replace(".qmd", "")`); when `.qmd` occurs only as the trailing
suffix this equals removing the trailing four characters. -/
theorem label_is_replace_all (p : List String) (n : String) (tabs : Nat)
    (h : endswith_qmd n = true) :
    files_to_yaml p (Root.dir [FsEntry.file n]) tabs =
      [py_repeat "  " tabs ++ "- text: \"" ++ py_replace_qmd n ++ "\"",
       py_repeat "  " (tabs + 1) ++ "href: " ++ ospath_join (renderPath p) n] ∧
    files_to_markdown p (Root.dir [FsEntry.file n]) =
      ["- [" ++ py_replace_qmd n ++ "](" ++ ospath_join (renderPath p) n ++ ")"] := by
  rw [files_to_yaml, files_to_markdown, matching_singleton, if_pos h]
  exact ⟨rfl, rfl⟩

/-- Witness for `label_is_replace_all` at the filename `a.qmd.qmd`. -/
theorem label_is_replace_all_witness :
    endswith_qmd "a.qmd.qmd" = true ∧
    (files_to_yaml ["tips"] (Root.dir [FsEntry.file "a.qmd.qmd"]) 2 =
      [py_repeat "  " 2 ++ "- text: \"" ++ py_replace_qmd "a.qmd.qmd" ++ "\"",
       py_repeat "  " 3 ++ "href: " ++ ospath_join (renderPath ["tips"]) "a.qmd.qmd"] ∧
    files_to_markdown ["tips"] (Root.dir [FsEntry.file "a.qmd.qmd"]) =
      ["- [" ++ py_replace_qmd "a.qmd.qmd" ++ "](" ++
        ospath_join (renderPath ["tips"]) "a.qmd.qmd" ++ ")"]) :=
  ⟨by decide, label_is_replace_all ["tips"] "a.qmd.qmd" 2 (by decide)⟩

/-- Claim C9: a file named exactly `.qmd` passes the suffix filter and
yields an empty label; the YAML line shows `- text: ""` and the Markdown
line shows `- []`, while the href keeps the full `.qmd` filename. -/
theorem dot_qmd_empty_label :
    files_to_yaml ["tips"] (Root.dir [FsEntry.file ".qmd"]) =
      ["          - text: \"\"", "            href: tips/.qmd"] ∧
    files_to_markdown ["tips"] (Root.dir [FsEntry.file ".qmd"]) =
      ["- [](tips/.qmd)"] ∧
    endswith_qmd ".qmd" = true ∧ py_replace_qmd ".qmd" = "" := by
  refine ⟨?_, ?_, by decide, by decide⟩
  · rw [files_to_yaml, matching_singleton]
    decide
  · rw [files_to_markdown, matching_singleton]
    decide

end ListFilesPy

namespace ListFilesPy

/-- Claim C4: for every entry printed by `files_to_yaml` and every
`tabs`, the fragment is exactly two lines, both appear in the output,
and the second (href) line is indented with exactly one more two-space
unit than the first (text) line; the `tabs` argument defaults to 5. -/
theorem yaml_indentation_law (p : List String) (r : Root) (tabs : Nat)
    (f : List String × String) (hf : f ∈ matching_entries p r) :
    files_to_yaml p r = files_to_yaml p r 5 ∧
    ∃ l1 l2, yaml_entry tabs f = [l1, l2] ∧
      l1 ∈ files_to_yaml p r tabs ∧ l2 ∈ files_to_yaml p r tabs ∧
      indentUnits l2 = indentUnits l1 + 1 := by
  refine ⟨rfl,
    py_repeat "  " tabs ++ "- text: \"" ++ py_replace_qmd f.2 ++ "\"",
    py_repeat "  " (tabs + 1) ++ "href: " ++ ospath_join (renderPath f.1) f.2,
    rfl, ?_, ?_, ?_⟩
  · exact List.mem_flatMap.mpr ⟨f, hf, List.mem_cons_self _ _⟩
  · exact List.mem_flatMap.mpr ⟨f, hf, by simp [yaml_entry]⟩
  · rw [indentUnits_yaml_line1, indentUnits_yaml_line2]

/-- Witness for `yaml_indentation_law` at a concrete tree and `tabs = 7`. -/
theorem yaml_indentation_law_witness :
    (["tips"], "intro.qmd") ∈ matching_entries ["tips"] (Root.dir [FsEntry.file "intro.qmd"]) ∧
    (files_to_yaml ["tips"] (Root.dir [FsEntry.file "intro.qmd"]) =
        files_to_yaml ["tips"] (Root.dir [FsEntry.file "intro.qmd"]) 5 ∧
      ∃ l1 l2, yaml_entry 7 (["tips"], "intro.qmd") = [l1, l2] ∧
        l1 ∈ files_to_yaml ["tips"] (Root.dir [FsEntry.file "intro.qmd"]) 7 ∧
        l2 ∈ files_to_yaml ["tips"] (Root.dir [FsEntry.file "intro.qmd"]) 7 ∧
        indentUnits l2 = indentUnits l1 + 1) :=
  ⟨by rw [matching_singleton]; decide,
   yaml_indentation_law ["tips"] (Root.dir [FsEntry.file "intro.qmd"]) 7
     (["tips"], "intro.qmd") (by rw [matching_singleton]; decide)⟩

/-- Claim C5: when no walker entry has a filename ending in the literal
suffix `.qmd`, both formatters print nothing (the filter is a literal
end-of-string test on the filename, so e.g. `weird.qmd.bak` is
excluded). -/
theorem no_qmd_suffix_no_output (p : List String) (r : Root) (tabs : Nat)
    (h : ∀ f ∈ list_files p r, endswith_qmd f.2 = false) :
    files_to_yaml p r tabs = [] ∧ files_to_markdown p r = [] := by
  have hm : matching_entries p r = [] := by
    rw [matching_entries, List.filter_eq_nil_iff]
    intro a ha
    simp [h a ha]
  rw [files_to_yaml, files_to_markdown, hm]
  exact ⟨rfl, rfl⟩

/-- Witness for `no_qmd_suffix_no_output` on a tree holding
`weird.qmd.bak`, `notes.txt` and a nested `x.qmd.orig`. -/
theorem no_qmd_suffix_no_output_witness :
    (∀ f ∈ list_files ["tips"]
        (Root.dir [FsEntry.file "weird.qmd.bak",
          FsEntry.dir "sub" [FsEntry.file "x.qmd.orig"],
          FsEntry.file "notes.txt"]),
      endswith_qmd f.2 = false) ∧
    (files_to_yaml ["tips"]
        (Root.dir [FsEntry.file "weird.qmd.bak",
          FsEntry.dir "sub" [FsEntry.file "x.qmd.orig"],
          FsEntry.file "notes.txt"]) 5 = [] ∧
      files_to_markdown ["tips"]
        (Root.dir [FsEntry.file "weird.qmd.bak",
          FsEntry.dir "sub" [FsEntry.file "x.qmd.orig"],
          FsEntry.file "notes.txt"]) = []) := by
  have h : ∀ f ∈ list_files ["tips"]
      (Root.dir [FsEntry.file "weird.qmd.bak",
        FsEntry.dir "sub" [FsEntry.file "x.qmd.orig"],
        FsEntry.file "notes.txt"]),
      endswith_qmd f.2 = false := by
    simp only [list_files, filesUnder, filesUnderChildren, fileNames]
    decide
  exact ⟨h, no_qmd_suffix_no_output ["tips"] _ 5 h⟩

/-- Claim C6: for every matching entry the href printed by both
formatters is the `os.path.join` of directory and filename with the
`.qmd` suffix intact (it still ends in `.qmd`), and `files_to_markdown`
prints exactly one `- [label](href)` line per matching entry. -/
theorem href_intact_one_line (d : List String) (n : String) (tabs : Nat)
    (h : endswith_qmd n = true) :
    yaml_entry tabs (d, n) =
      [py_repeat "  " tabs ++ "- text: \"" ++ py_replace_qmd n ++ "\"",
       py_repeat "  " (tabs + 1) ++ "href: " ++ ospath_join (renderPath d) n] ∧
    md_entry (d, n) =
      "- [" ++ py_replace_qmd n ++ "](" ++ ospath_join (renderPath d) n ++ ")" ∧
    endswith_qmd (ospath_join (renderPath d) n) = true ∧
    ∀ (p : List String) (r : Root),
      (files_to_markdown p r).length = (matching_entries p r).length := by
  refine ⟨rfl, rfl, endswith_qmd_ospath_join _ _ h, fun p r => ?_⟩
  rw [files_to_markdown, List.length_map]

/-- Witness for `href_intact_one_line` at `intro.qmd` under `tips`. -/
theorem href_intact_one_line_witness :
    endswith_qmd "intro.qmd" = true ∧
    (yaml_entry 5 (["tips"], "intro.qmd") =
      [py_repeat "  " 5 ++ "- text: \"" ++ py_replace_qmd "intro.qmd" ++ "\"",
       py_repeat "  " 6 ++ "href: " ++ ospath_join (renderPath ["tips"]) "intro.qmd"] ∧
    md_entry (["tips"], "intro.qmd") =
      "- [" ++ py_replace_qmd "intro.qmd" ++ "](" ++
        ospath_join (renderPath ["tips"]) "intro.qmd" ++ ")" ∧
    endswith_qmd (ospath_join (renderPath ["tips"]) "intro.qmd") = true ∧
    ∀ (p : List String) (r : Root),
      (files_to_markdown p r).length = (matching_entries p r).length) :=
  ⟨by decide, href_intact_one_line ["tips"] "intro.qmd" 5 (by decide)⟩

/-- Claim C7 (spec-modelled): the plain-listing operation prints, for
every walker entry with no suffix filter, the joined directory+filename
path, one line per entry, in the walker's traversal order. -/
theorem plain_listing_joined_paths (p : List String) (r : Root) :
    (files_to_list p r).length = (list_files p r).length ∧
    ∀ i : Nat, (files_to_list p r)[i]? =
      Option.map (fun f => ospath_join (renderPath f.1) f.2) (list_files p r)[i]? := by
  refine ⟨?_, fun i => ?_⟩
  · rw [files_to_list, List.length_map]
  · rw [files_to_list, List.getElem?_map]

/-- Claim C8: the stdout of both formatters is a function of the walker's
entry sequence alone — two runs (or two filesystem states) that give the
same traversal produce byte-identical output. -/
theorem output_determined_by_traversal (p : List String) (r₁ r₂ : Root)
    (tabs : Nat) (h : list_files p r₁ = list_files p r₂) :
    files_to_yaml p r₁ tabs = files_to_yaml p r₂ tabs ∧
    files_to_markdown p r₁ = files_to_markdown p r₂ := by
  rw [files_to_yaml, files_to_yaml, files_to_markdown, files_to_markdown,
    matching_entries, matching_entries, h]
  exact ⟨rfl, rfl⟩

/-- Witness for `output_determined_by_traversal`: two different trees
(one holds an empty subdirectory) with the same walker output. -/
theorem output_determined_by_traversal_witness :
    list_files ["tips"] (Root.dir [FsEntry.dir "s" []]) =
      list_files ["tips"] (Root.dir []) ∧
    (files_to_yaml ["tips"] (Root.dir [FsEntry.dir "s" []]) 5 =
        files_to_yaml ["tips"] (Root.dir []) 5 ∧
      files_to_markdown ["tips"] (Root.dir [FsEntry.dir "s" []]) =
        files_to_markdown ["tips"] (Root.dir [])) := by
  have h : list_files ["tips"] (Root.dir [FsEntry.dir "s" []]) =
      list_files ["tips"] (Root.dir []) := by
    simp only [list_files, filesUnder, filesUnderChildren, fileNames]
    decide
  exact ⟨h, output_determined_by_traversal ["tips"] _ _ 5 h⟩

/-- Claim C10: the suffix filter and the label inspect only the filename
component — an entry matches under one directory exactly when it matches
under any other — and the directory component flows verbatim (joined,
unstripped) into the href, even when it contains `.qmd`. -/
theorem filter_label_ignore_directory (d₁ d₂ : List String) (n : String)
    (tabs : Nat) :
    ((files_to_yaml d₁ (Root.dir [FsEntry.file n]) tabs = []) ↔
      (files_to_yaml d₂ (Root.dir [FsEntry.file n]) tabs = [])) ∧
    ((files_to_markdown d₁ (Root.dir [FsEntry.file n]) = []) ↔
      (files_to_markdown d₂ (Root.dir [FsEntry.file n]) = [])) ∧
    (endswith_qmd n = true →
      files_to_markdown d₁ (Root.dir [FsEntry.file n]) =
        ["- [" ++ py_replace_qmd n ++ "](" ++ ospath_join (renderPath d₁) n ++ ")"] ∧
      files_to_yaml d₁ (Root.dir [FsEntry.file n]) tabs =
        [py_repeat "  " tabs ++ "- text: \"" ++ py_replace_qmd n ++ "\"",
         py_repeat "  " (tabs + 1) ++ "href: " ++ ospath_join (renderPath d₁) n]) := by
  cases h : endswith_qmd n with
  | true =>
      simp only [files_to_yaml, files_to_markdown, matching_singleton, h, if_true]
      refine ⟨?_, ?_, fun _ => ⟨rfl, rfl⟩⟩
      · simp [yaml_entry]
      · simp
  | false =>
      simp [files_to_yaml, files_to_markdown, matching_singleton, h]

/-- Witness for `filter_label_ignore_directory` with a directory chain
containing `sub.qmd`. -/
theorem filter_label_ignore_directory_witness :
    ((files_to_yaml ["tips", "sub.qmd"] (Root.dir [FsEntry.file "a.qmd"]) 5 = []) ↔
      (files_to_yaml ["elsewhere"] (Root.dir [FsEntry.file "a.qmd"]) 5 = [])) ∧
    ((files_to_markdown ["tips", "sub.qmd"] (Root.dir [FsEntry.file "a.qmd"]) = []) ↔
      (files_to_markdown ["elsewhere"] (Root.dir [FsEntry.file "a.qmd"]) = [])) ∧
    (endswith_qmd "a.qmd" = true →
      files_to_markdown ["tips", "sub.qmd"] (Root.dir [FsEntry.file "a.qmd"]) =
        ["- [" ++ py_replace_qmd "a.qmd" ++ "](" ++
          ospath_join (renderPath ["tips", "sub.qmd"]) "a.qmd" ++ ")"] ∧
      files_to_yaml ["tips", "sub.qmd"] (Root.dir [FsEntry.file "a.qmd"]) 5 =
        [py_repeat "  " 5 ++ "- text: \"" ++ py_replace_qmd "a.qmd" ++ "\"",
         py_repeat "  " 6 ++ "href: " ++
           ospath_join (renderPath ["tips", "sub.qmd"]) "a.qmd"]) :=
  filter_label_ignore_directory ["tips", "sub.qmd"] ["elsewhere"] "a.qmd" 5

end ListFilesPy

namespace ListFilesPy

/-- Claim C3: for a well-formed directory tree (names within each
directory pairwise distinct, as a real filesystem guarantees), the pairs
yielded by the walker are exactly the regular files reachable from the
root — no omissions, nothing extra (in particular never a pair for a
directory entry, since `ReachableFile` only holds of regular files) —
and the yielded list has no duplicate pair. -/
theorem walker_exact_and_nodup (p : List String) (es : List FsEntry)
    (h : wfListing es = true) :
    (∀ x, x ∈ list_files p (Root.dir es) ↔ ReachableFile p es x) ∧
    (list_files p (Root.dir es)).Nodup :=
  ⟨fun _ => mem_filesUnder, nodup_filesUnder p h⟩

/-- Witness for `walker_exact_and_nodup` on a nested concrete tree. -/
theorem walker_exact_and_nodup_witness :
    wfListing [FsEntry.file "intro.qmd",
      FsEntry.dir "sub" [FsEntry.file "deep.qmd",
        FsEntry.dir "sub2" [FsEntry.file "d2.txt"]],
      FsEntry.file "notes.txt"] = true ∧
    ((∀ x, x ∈ list_files ["tips"] (Root.dir [FsEntry.file "intro.qmd",
        FsEntry.dir "sub" [FsEntry.file "deep.qmd",
          FsEntry.dir "sub2" [FsEntry.file "d2.txt"]],
        FsEntry.file "notes.txt"]) ↔
      ReachableFile ["tips"] [FsEntry.file "intro.qmd",
        FsEntry.dir "sub" [FsEntry.file "deep.qmd",
          FsEntry.dir "sub2" [FsEntry.file "d2.txt"]],
        FsEntry.file "notes.txt"] x) ∧
    (list_files ["tips"] (Root.dir [FsEntry.file "intro.qmd",
        FsEntry.dir "sub" [FsEntry.file "deep.qmd",
          FsEntry.dir "sub2" [FsEntry.file "d2.txt"]],
        FsEntry.file "notes.txt"])).Nodup) := by
  have h : wfListing [FsEntry.file "intro.qmd",
      FsEntry.dir "sub" [FsEntry.file "deep.qmd",
        FsEntry.dir "sub2" [FsEntry.file "d2.txt"]],
      FsEntry.file "notes.txt"] = true := by
    simp only [wfListing, wfChildren]
    decide
  exact ⟨h, walker_exact_and_nodup ["tips"] _ h⟩

end ListFilesPy
